import Mathlib

/-!
Verification of the treemap tree engine (`tm_trees.py`).

This file gives a shallow embedding of the `TMTree` class and its public
operations, and proves the specification claims about it.

Modelling conventions:
* A `TMTree` object is an inductive tree; the `_parent_tree` back-reference
  of the source is represented by operating on a whole root tree together
  with a path (`List Nat` of child indices) to the target node.  A node has
  a parent exactly when its path is nonempty.
* Python `int` is `Int`; the `float` factor of `change_size` and the float
  division in `_distribute_space_subtrees` are modelled by exact rational
  arithmetic (`ℚ`), with Python `int(x)` being truncation toward zero
  (`Int.tdiv`) and `math.ceil` / `math.floor` being `Int.ceil` / `Int.floor`.
* The random colour chosen in `__init__` is cosmetic (never read by the
  engine) and is modelled as the fixed triple `(0,0,0)`.
-/

/-- A pygame rectangle tuple `(x, y, width, height)`. -/
structure Rect where
  x : Int
  y : Int
  width : Int
  height : Int
deriving DecidableEq, Repr

/-- The `TMTree` node: `_name` (`none` marks the empty tree), `_subtrees`,
`rect`, `data_size`, `_colour`, `_expanded`. -/
inductive TMTree where
  | mk (name : Option String) (subtrees : List TMTree) (rect : Rect)
       (data_size : Int) (colour : Nat × Nat × Nat) (expanded : Bool)

def TMTree.name : TMTree → Option String
  | .mk nm _ _ _ _ _ => nm

def TMTree.subtrees : TMTree → List TMTree
  | .mk _ subs _ _ _ _ => subs

def TMTree.rect : TMTree → Rect
  | .mk _ _ r _ _ _ => r

def TMTree.data_size : TMTree → Int
  | .mk _ _ _ d _ _ => d

def TMTree.colour : TMTree → Nat × Nat × Nat
  | .mk _ _ _ _ c _ => c

def TMTree.expanded : TMTree → Bool
  | .mk _ _ _ _ _ e => e

/-- `self.rect = r` (plain field assignment, used inside the layout loop). -/
def TMTree.setRect : TMTree → Rect → TMTree
  | .mk nm subs _ d c e, r => .mk nm subs r d c e

/-- `is_empty`: true iff `_name is None`. -/
def TMTree.is_empty (t : TMTree) : Bool :=
  t.name = none

/-- `_is_leaf`: true iff `_subtrees` is empty. -/
def TMTree.is_leaf (t : TMTree) : Bool :=
  t.subtrees.isEmpty

mutual
/-- Node count; the measure used for induction over a `TMTree`. -/
def nodes : TMTree → Nat
  | .mk _ subs _ _ _ _ => 1 + nodesList subs
def nodesList : List TMTree → Nat
  | [] => 0
  | c :: cs => nodes c + nodesList cs
end

/-- Sum of the stored `data_size` fields of a list of subtrees. -/
def sumSizes : List TMTree → Int
  | [] => 0
  | c :: cs => c.data_size + sumSizes cs

mutual
/-- `_sum_size`: a leaf keeps its `data_size`; an internal node recomputes
every `data_size` in its subtree bottom-up as the sum of its children. -/
def sum_size : TMTree → TMTree
  | .mk nm subs r d c e =>
    if subs.isEmpty then .mk nm subs r d c e
    else
      let subs' := sum_size_list subs
      .mk nm subs' r (sumSizes subs') c e
def sum_size_list : List TMTree → List TMTree
  | [] => []
  | c :: cs => sum_size c :: sum_size_list cs
end

/-- `TMTree.__init__(name, subtrees, data_size)`: rect `(0,0,0,0)`, not
expanded, the given `data_size`, then `_sum_size()` (which overrides the
given size whenever `subtrees` is nonempty).  The random `_colour` is
modelled as `(0,0,0)`; parent pointers are implicit in the tree structure. -/
def TMTree.init (name : Option String) (subtrees : List TMTree)
    (data_size : Int) : TMTree :=
  sum_size (.mk name subtrees ⟨0, 0, 0, 0⟩ data_size (0, 0, 0) false)

mutual
/-- `update_data_sizes`: a leaf returns its size unchanged; an internal node
recomputes every internal `data_size` in its subtree as the sum of its
updated children (the returned int of the source is the root field of the
returned tree). -/
def update_data_sizes : TMTree → TMTree
  | .mk nm subs r d c e =>
    if subs.isEmpty then .mk nm subs r d c e
    else
      let subs' := update_data_sizes_list subs
      .mk nm subs' r (sumSizes subs') c e
def update_data_sizes_list : List TMTree → List TMTree
  | [] => []
  | c :: cs => update_data_sizes c :: update_data_sizes_list cs
end

/-- `_calculate_dimension`: for a non-last subtree,
`int(total_dimension * proportion)` where `proportion = size / total`
(Python `int()` of the exact quotient: truncation toward zero); for the
last subtree, `total_dimension - offset`. -/
def calculate_dimension (total_dimension size total offset : Int)
    (is_last : Bool) : Int :=
  if !is_last then Int.tdiv (total_dimension * size) total
  else total_dimension - offset

mutual
/-- `update_rectangles` (`_handle_base_cases` + `_distribute_space_subtrees`):

* empty node with positive size: claim the whole rect;
* size `0`: rect becomes `(0,0,0,0)`, children are laid out in the
  original rect;
* nonempty node with positive size: claim the rect and split it among the
  children along the longer axis (`width > height` gives horizontal strips);
* otherwise (negative size): nothing happens. -/
def update_rectangles : TMTree → Rect → TMTree
  | .mk nm subs r0 ds col e, r =>
    if nm = none ∧ 0 < ds then .mk nm subs r ds col e
    else if ds = 0 then .mk nm (update_rect_list subs r) ⟨0, 0, 0, 0⟩ ds col e
    else if 0 < ds then
      .mk nm (distribute_space r.x r.y r.width r.height ds 0 subs) r ds col e
    else .mk nm subs r0 ds col e
/-- `update_pre` models the source's `subtree.rect = ...` assignment followed
by `subtree.update_rectangles(subtree.rect)`: it is the same computation as
`update_rectangles` except that the do-nothing branch keeps the freshly
assigned rect. -/
def update_pre : TMTree → Rect → TMTree
  | .mk nm subs _ ds col e, r =>
    if nm = none ∧ 0 < ds then .mk nm subs r ds col e
    else if ds = 0 then .mk nm (update_rect_list subs r) ⟨0, 0, 0, 0⟩ ds col e
    else if 0 < ds then
      .mk nm (distribute_space r.x r.y r.width r.height ds 0 subs) r ds col e
    else .mk nm subs r ds col e
def update_rect_list : List TMTree → Rect → List TMTree
  | [], _ => []
  | c :: cs, r => update_rectangles c r :: update_rect_list cs r
/-- The `for i, subtree in enumerate(self._subtrees)` loop of
`_distribute_space_subtrees`, carrying the running `offset`. -/
def distribute_space (x y w h total offset : Int) : List TMTree → List TMTree
  | [] => []
  | c :: cs =>
    if h < w then
      let cw := calculate_dimension w c.data_size total offset cs.isEmpty
      update_pre c ⟨x + offset, y, cw, h⟩ ::
        distribute_space x y w h total (offset + cw) cs
    else
      let ch := calculate_dimension h c.data_size total offset cs.isEmpty
      update_pre c ⟨x, y + offset, w, ch⟩ ::
        distribute_space x y w h total (offset + ch) cs
end

/-- `_is_pos_inside_rect`: inclusive delta bounds
`x ≤ px ≤ x + width` and `y ≤ py ≤ y + height`. -/
def is_pos_inside_rect (t : TMTree) (pos : Int × Int) : Bool :=
  decide (t.rect.x ≤ pos.1 ∧ pos.1 ≤ t.rect.x + t.rect.width ∧
    t.rect.y ≤ pos.2 ∧ pos.2 ≤ t.rect.y + t.rect.height)

mutual
/-- `get_tree_at_position` together with `_search_subtrees_for_pos`
(`_is_leaf_or_not_expanded` is inlined as `subs.isEmpty || !e`). -/
def get_tree_at_position : TMTree → Int × Int → Option TMTree
  | .mk nm subs r d c e, pos =>
    if is_pos_inside_rect (.mk nm subs r d c e) pos then
      if subs.isEmpty || !e then some (.mk nm subs r d c e)
      else search_subtrees_for_pos subs pos
    else none
def search_subtrees_for_pos : List TMTree → Int × Int → Option TMTree
  | [], _ => none
  | c :: cs, pos =>
    match get_tree_at_position c pos with
    | some m => some m
    | none => search_subtrees_for_pos cs pos
end

/-- The node reached from the root by following a list of child indices;
`none` if the path does not exist.  A node "has a parent" exactly when its
path is nonempty. -/
def getAt : TMTree → List Nat → Option TMTree
  | t, [] => some t
  | t, i :: p =>
    match t.subtrees[i]? with
    | some c => getAt c p
    | none => none

/-- Replace the element at an index of a list (identity if out of range). -/
def listModify : List α → Nat → (α → α) → List α
  | [], _, _ => []
  | a :: as, 0, f => f a :: as
  | a :: as, n + 1, f => a :: listModify as n f

/-- Apply `f` to the node at a path, rebuilding the ancestors (identity on
the tree if the path does not exist). -/
def modifyAt : TMTree → List Nat → (TMTree → TMTree) → TMTree
  | t, [], f => f t
  | .mk nm subs r d c e, i :: p, f =>
    .mk nm (listModify subs i (fun s => modifyAt s p f)) r d c e

/-- `_apply_size_change` (with `_increase_size` / `_decrease_size`):
`factor > 0` adds `ceil(data_size * factor)`; otherwise a zero size becomes
`1`, and a nonzero size becomes
`max 1 (data_size + floor(data_size * factor))`. -/
def apply_size_change (t : TMTree) (factor : ℚ) : TMTree :=
  match t with
  | .mk nm subs r d c e =>
    if 0 < factor then .mk nm subs r (d + ⌈(d : ℚ) * factor⌉) c e
    else if d = 0 then .mk nm subs r (d + 1) c e
    else .mk nm subs r (max 1 (d + ⌊(d : ℚ) * factor⌋)) c e

/-- `change_size(factor)` on the node at path `p`: nothing unless the node
is a leaf; otherwise apply the size change and then `_helper_root()`
(`update_data_sizes` on the root of the whole tree). -/
def change_size (t : TMTree) (p : List Nat) (factor : ℚ) : TMTree :=
  match getAt t p with
  | none => t
  | some n =>
    if n.subtrees.isEmpty then
      update_data_sizes (modifyAt t p (fun m => apply_size_change m factor))
    else t

/-- `expand` on a single node: nothing for a leaf, else `_expanded = True`. -/
def expandNode : TMTree → TMTree
  | .mk nm subs r d c e =>
    if subs.isEmpty then .mk nm subs r d c e else .mk nm subs r d c true

/-- `expand` on the node at path `p`. -/
def expand (t : TMTree) (p : List Nat) : TMTree :=
  modifyAt t p expandNode

mutual
/-- `expand_all` on a single node: nothing for a leaf, else `_expanded = True`
and recurse into every subtree. -/
def expandAllNode : TMTree → TMTree
  | .mk nm subs r d c e =>
    if subs.isEmpty then .mk nm subs r d c e
    else .mk nm (expandAllList subs) r d c true
def expandAllList : List TMTree → List TMTree
  | [] => []
  | c :: cs => expandAllNode c :: expandAllList cs
end

/-- `expand_all` on the node at path `p`. -/
def expand_all (t : TMTree) (p : List Nat) : TMTree :=
  modifyAt t p expandAllNode

mutual
/-- `_collapse_parent`: force `_expanded = False` on a node and recursively
on its whole subtree. -/
def collapse_parent : TMTree → TMTree
  | .mk nm subs r d c _ => .mk nm (collapseParentList subs) r d c false
def collapseParentList : List TMTree → List TMTree
  | [] => []
  | c :: cs => collapse_parent c :: collapseParentList cs
end

/-- `collapse` on the node at path `p`: nothing if the node has no parent;
otherwise the parent's `_expanded` becomes `False`, and `_collapse_parent`
runs on every one of the parent's subtrees (which covers the called-on node
and all its siblings). -/
def collapse (t : TMTree) (p : List Nat) : TMTree :=
  if p.isEmpty then t
  else
    modifyAt t p.dropLast (fun par =>
      match par with
      | .mk nm subs r d c _ => .mk nm (collapseParentList subs) r d c false)

/-- `collapse_all`: `_get_root()` walks to the root (the whole tree in this
embedding), then `_collapse_parent` on it. -/
def collapse_all (t : TMTree) : TMTree :=
  collapse_parent t

/-- Where the destination node lives after the moved node was removed from
child position `si` under the parent at `sp`: an index of `dst` passing
through the same parent after the removed slot shifts down by one.
(In the source the destination is an object reference, unaffected by the
removal; this relocates it in the rebuilt tree.) -/
def adjustPath (sp : List Nat) (si : Nat) (dst : List Nat) : List Nat :=
  if sp.isPrefixOf dst then
    match dst[sp.length]? with
    | some j => if si < j then sp ++ (j - 1) :: dst.drop (sp.length + 1) else dst
    | none => dst
  else dst

/-- `move(destination)` of the node at `src` to the node at `dst`:
nothing when moving to itself or to its own parent, when the node is not a
leaf, or when the destination is a leaf.  Otherwise: remove the node from
its parent (forcing the parent's `_expanded = False` if it became childless
and subtracting the node's size), `_helper_root()` (`update_data_sizes` on
the root), append the node as last subtree of the destination, add its size,
and `_helper_root()` again. -/
def move (t : TMTree) (src dst : List Nat) : TMTree :=
  match getAt t src, getAt t dst with
  | some n, some d =>
    if src = dst ∨ (¬src.isEmpty ∧ dst = src.dropLast) then t
    else if n.subtrees.isEmpty && !d.subtrees.isEmpty then
      match src.getLast? with
      | none => t
        -- unreachable: a leaf at the root has no other node to receive it
        -- (the source would raise an AttributeError on the `None` parent)
      | some si =>
        let sp := src.dropLast
        let t1 := modifyAt t sp (fun par =>
          match par with
          | .mk nm subs r pd c e =>
            let subs' := subs.eraseIdx si
            .mk nm subs' r (pd - n.data_size) c
              (if subs'.isEmpty then false else e))
        let t2 := update_data_sizes t1
        let t3 := modifyAt t2 (adjustPath sp si dst) (fun dest =>
          match dest with
          | .mk nm subs r dd c e =>
            .mk nm (subs ++ [n]) r (dd + n.data_size) c e)
        update_data_sizes t3
    else t
  | _, _ => t

/-- One step of `_recalculate_data_sizes`: `data_size` becomes the sum of
the stored children sizes. -/
def recalcNode : TMTree → TMTree
  | .mk nm subs r _ c e => .mk nm subs r (sumSizes subs) c e

/-- `_recalculate_data_sizes` from the node at path `q`: recalculate its
`data_size` from its stored children, then the same on its parent, up to
the root. -/
def recalcUp : TMTree → List Nat → TMTree
  | t, [] => modifyAt t [] recalcNode
  | t, i :: p => recalcUp (modifyAt t (i :: p) recalcNode) (i :: p).dropLast
termination_by _ q => q.length
decreasing_by
  simp [List.length_dropLast]

/-- `delete_self` of the node at path `p`: `False` and no change when the
node has no parent.  Otherwise remove it from the parent (forcing the
parent's `_expanded = False` if it became childless), run
`_recalculate_data_sizes` on the parent chain, `update_data_sizes` on the
parent, and `_helper_root()` (`update_data_sizes` on the root), returning
`True`.  (The source also zeroes the detached node's `data_size` and keeps
its `_parent_tree` pointer; the detached node is no longer part of the
tree.) -/
def delete_self (t : TMTree) (p : List Nat) : Bool × TMTree :=
  match p.getLast? with
  | none => (false, t)
  | some si =>
    let sp := p.dropLast
    let t1 := modifyAt t sp (fun par =>
      match par with
      | .mk nm subs r d c e =>
        let subs' := subs.eraseIdx si
        .mk nm subs' r d c (if subs'.isEmpty then false else e))
    let t2 := recalcUp t1 sp
    let t3 := modifyAt t2 sp update_data_sizes
    (true, update_data_sizes t3)

/-- The public mutations, each aimed at a node by its path from the root. -/
inductive Mutation where
  | changeSize (p : List Nat) (factor : ℚ)
  | moveOp (src dst : List Nat)
  | deleteOp (p : List Nat)
  | expandOp (p : List Nat)
  | expandAllOp (p : List Nat)
  | collapseOp (p : List Nat)
  | collapseAllOp

def applyMutation (t : TMTree) : Mutation → TMTree
  | .changeSize p f => change_size t p f
  | .moveOp s d => move t s d
  | .deleteOp p => (delete_self t p).2
  | .expandOp p => expand t p
  | .expandAllOp p => expand_all t p
  | .collapseOp p => collapse t p
  | .collapseAllOp => collapse_all t

mutual
/-- The weight-sum invariant: every node with children stores exactly the
sum of its children's `data_size`. -/
def sizesOkB : TMTree → Bool
  | .mk _ subs _ d _ _ =>
    (subs.isEmpty || decide (d = sumSizes subs)) && sizesOkListB subs
def sizesOkListB : List TMTree → Bool
  | [] => true
  | c :: cs => sizesOkB c && sizesOkListB cs
end

mutual
/-- The visibility invariant: an expanded node's parent is expanded
(prefix-closure along root paths) and a childless node is never expanded. -/
def expandedOkB : TMTree → Bool
  | .mk _ subs _ _ _ e =>
    (if subs.isEmpty then !e else true) && expandedOkListB subs e
def expandedOkListB : List TMTree → Bool → Bool
  | [], _ => true
  | c :: cs, pe =>
    (!c.expanded || pe) && expandedOkB c && expandedOkListB cs pe
end

mutual
/-- Every `data_size` in the tree is `0`. -/
def allZeroB : TMTree → Bool
  | .mk _ subs _ d _ _ => decide (d = 0) && allZeroListB subs
def allZeroListB : List TMTree → Bool
  | [] => true
  | c :: cs => allZeroB c && allZeroListB cs
end

mutual
/-- Every `rect` in the tree is the degenerate `(0,0,0,0)`. -/
def allRectsZeroB : TMTree → Bool
  | .mk _ subs r _ _ _ => decide (r = ⟨0, 0, 0, 0⟩) && allRectsZeroListB subs
def allRectsZeroListB : List TMTree → Bool
  | [] => true
  | c :: cs => allRectsZeroB c && allRectsZeroListB cs
end

/-- Everything about a tree except its rectangles: name, size, colour,
expansion flag and the same data for the children.  `update_rectangles`
must preserve this projection. -/
inductive FTree where
  | mk (name : Option String) (data_size : Int) (colour : Nat × Nat × Nat)
       (expanded : Bool) (kids : List FTree)

mutual
def frame : TMTree → FTree
  | .mk nm subs _ d c e => .mk nm d c e (frameList subs)
def frameList : List TMTree → List FTree
  | [] => []
  | c :: cs => frame c :: frameList cs
end

/-- Modelled from the spec: the list of extents the layout assigns along the
split axis — each non-last child gets `total_extent * size / total` truncated
toward zero (amended from the spec's `floor`), and the last child gets
`total_extent` minus the accumulated prior extents. -/
def specExtents (total d : Int) : List Int → Int → List Int
  | [], _ => []
  | [_], acc => [total - acc]
  | s :: rest, acc =>
    Int.tdiv (total * s) d ::
      specExtents total d rest (acc + Int.tdiv (total * s) d)

/-- Modelled from the spec: horizontal strips of the given extents, laid
left to right from offset `off` inside a parent at `(x, y)` with height `h`. -/
def specHStrips (x y h : Int) : Int → List Int → List Rect
  | _, [] => []
  | off, ext :: es => ⟨x + off, y, ext, h⟩ :: specHStrips x y h (off + ext) es

/-- Modelled from the spec: vertical strips of the given extents, laid top
to bottom from offset `off` inside a parent at `(x, y)` with width `w`. -/
def specVStrips (x y w : Int) : Int → List Int → List Rect
  | _, [] => []
  | off, ext :: es => ⟨x, y + off, w, ext⟩ :: specVStrips x y w (off + ext) es

/-! ### Basic rewriting lemmas -/

@[simp] theorem TMTree.name_mk (nm subs r d c e) :
    (TMTree.mk nm subs r d c e).name = nm := rfl

@[simp] theorem TMTree.subtrees_mk (nm subs r d c e) :
    (TMTree.mk nm subs r d c e).subtrees = subs := rfl

@[simp] theorem TMTree.rect_mk (nm subs r d c e) :
    (TMTree.mk nm subs r d c e).rect = r := rfl

@[simp] theorem TMTree.data_size_mk (nm subs r d c e) :
    (TMTree.mk nm subs r d c e).data_size = d := rfl

@[simp] theorem TMTree.colour_mk (nm subs r d c e) :
    (TMTree.mk nm subs r d c e).colour = c := rfl

@[simp] theorem TMTree.expanded_mk (nm subs r d c e) :
    (TMTree.mk nm subs r d c e).expanded = e := rfl

@[simp] theorem TMTree.setRect_mk (nm subs r0 d c e r) :
    (TMTree.mk nm subs r0 d c e).setRect r = .mk nm subs r d c e := rfl

@[simp] theorem nodes_mk (nm subs r d c e) :
    nodes (.mk nm subs r d c e) = 1 + nodesList subs := by
  rw [nodes]

@[simp] theorem nodesList_nil : nodesList [] = 0 := by rw [nodesList]

@[simp] theorem nodesList_cons (c cs) :
    nodesList (c :: cs) = nodes c + nodesList cs := by rw [nodesList]

theorem nodes_pos (t : TMTree) : 0 < nodes t := by
  cases t with
  | mk nm subs r d c e => simp

theorem nodes_le_of_mem {c : TMTree} {l : List TMTree} (h : c ∈ l) :
    nodes c ≤ nodesList l := by
  induction l with
  | nil => cases h
  | cons a as ih =>
    rcases List.mem_cons.mp h with rfl | h'
    · simp
    · have := ih h'
      simp
      omega

theorem nodes_lt_of_mem {c : TMTree} {nm subs r d col e} (h : c ∈ subs) :
    nodes c < nodes (.mk nm subs r d col e) := by
  have := nodes_le_of_mem h
  simp
  omega

@[simp] theorem nodes_setRect (t : TMTree) (r : Rect) :
    nodes (t.setRect r) = nodes t := by
  cases t with
  | mk nm subs r0 d c e => simp

/-- Strong induction on the node count of a tree. -/
theorem tm_ind (P : TMTree → Prop)
    (ih : ∀ t, (∀ s, nodes s < nodes t → P s) → P t) (t : TMTree) : P t := by
  have key : ∀ n t, nodes t < n → P t := by
    intro n
    induction n with
    | zero => intro t h; omega
    | succ n ihn => exact fun t h => ih t (fun s hs => ihn s (by omega))
  exact key (nodes t + 1) t (by omega)

@[simp] theorem sumSizes_nil : sumSizes [] = 0 := rfl

@[simp] theorem sumSizes_cons (c cs) :
    sumSizes (c :: cs) = c.data_size + sumSizes cs := rfl

/-! ### The list companions are `List.map` -/

theorem sum_size_list_eq (l : List TMTree) :
    sum_size_list l = l.map sum_size := by
  induction l with
  | nil => rw [sum_size_list]; rfl
  | cons c cs ih => rw [sum_size_list, ih]; rfl

theorem update_data_sizes_list_eq (l : List TMTree) :
    update_data_sizes_list l = l.map update_data_sizes := by
  induction l with
  | nil => rw [update_data_sizes_list]; rfl
  | cons c cs ih => rw [update_data_sizes_list, ih]; rfl

theorem update_rect_list_eq (l : List TMTree) (r : Rect) :
    update_rect_list l r = l.map (update_rectangles · r) := by
  induction l with
  | nil => rw [update_rect_list]; rfl
  | cons c cs ih => rw [update_rect_list, ih]; rfl

theorem expandAllList_eq (l : List TMTree) :
    expandAllList l = l.map expandAllNode := by
  induction l with
  | nil => rw [expandAllList]; rfl
  | cons c cs ih => rw [expandAllList, ih]; rfl

theorem collapseParentList_eq (l : List TMTree) :
    collapseParentList l = l.map collapse_parent := by
  induction l with
  | nil => rw [collapseParentList]; rfl
  | cons c cs ih => rw [collapseParentList, ih]; rfl

theorem frameList_eq (l : List TMTree) : frameList l = l.map frame := by
  induction l with
  | nil => rw [frameList]; rfl
  | cons c cs ih => rw [frameList, ih]; rfl

/-! ### Branch lemmas for the layout engine -/

theorem update_rectangles_empty_pos {nm : Option String} {subs r0 ds col e}
    (h1 : nm = none) (h2 : 0 < ds) (r : Rect) :
    update_rectangles (.mk nm subs r0 ds col e) r = .mk nm subs r ds col e := by
  rw [update_rectangles]
  simp [h1, h2]

theorem update_rectangles_zero {nm : Option String} {subs r0 ds col e}
    (h : ds = 0) (r : Rect) :
    update_rectangles (.mk nm subs r0 ds col e) r =
      .mk nm (update_rect_list subs r) ⟨0, 0, 0, 0⟩ ds col e := by
  rw [update_rectangles]
  simp [h]

theorem update_rectangles_pos {nm : Option String} {subs r0 ds col e}
    (h1 : nm ≠ none) (h2 : 0 < ds) (r : Rect) :
    update_rectangles (.mk nm subs r0 ds col e) r =
      .mk nm (distribute_space r.x r.y r.width r.height ds 0 subs) r ds col e := by
  rw [update_rectangles, if_neg (fun hc => h1 hc.1), if_neg (by omega : ¬ds = 0),
    if_pos h2]

theorem update_rectangles_neg {nm : Option String} {subs r0 ds col e}
    (h : ds < 0) (r : Rect) :
    update_rectangles (.mk nm subs r0 ds col e) r = .mk nm subs r0 ds col e := by
  rw [update_rectangles, if_neg (fun hc => absurd hc.2 (by omega)),
    if_neg (by omega : ¬ds = 0), if_neg (by omega : ¬0 < ds)]

theorem update_pre_empty_pos {nm : Option String} {subs r0 ds col e}
    (h1 : nm = none) (h2 : 0 < ds) (r : Rect) :
    update_pre (.mk nm subs r0 ds col e) r = .mk nm subs r ds col e := by
  rw [update_pre]
  simp [h1, h2]

theorem update_pre_zero {nm : Option String} {subs r0 ds col e}
    (h : ds = 0) (r : Rect) :
    update_pre (.mk nm subs r0 ds col e) r =
      .mk nm (update_rect_list subs r) ⟨0, 0, 0, 0⟩ ds col e := by
  rw [update_pre]
  simp [h]

theorem update_pre_pos {nm : Option String} {subs r0 ds col e}
    (h1 : nm ≠ none) (h2 : 0 < ds) (r : Rect) :
    update_pre (.mk nm subs r0 ds col e) r =
      .mk nm (distribute_space r.x r.y r.width r.height ds 0 subs) r ds col e := by
  rw [update_pre, if_neg (fun hc => h1 hc.1), if_neg (by omega : ¬ds = 0),
    if_pos h2]

theorem update_pre_neg {nm : Option String} {subs r0 ds col e}
    (h : ds < 0) (r : Rect) :
    update_pre (.mk nm subs r0 ds col e) r = .mk nm subs r ds col e := by
  rw [update_pre, if_neg (fun hc => absurd hc.2 (by omega)),
    if_neg (by omega : ¬ds = 0), if_neg (by omega : ¬0 < ds)]

/-- `update_pre` is exactly "assign the rect, then `update_rectangles`". -/
theorem update_pre_eq (t : TMTree) (r : Rect) :
    update_pre t r = update_rectangles (t.setRect r) r := by
  cases t with
  | mk nm subs r0 ds col e =>
    rw [update_pre, TMTree.setRect, update_rectangles]

/-- `update_rectangles` reads the previously stored rect only in the
do-nothing (negative size) branch. -/
theorem update_rectangles_setRect {t : TMTree} (h : 0 ≤ t.data_size)
    (ρ r : Rect) :
    update_rectangles (t.setRect ρ) r = update_rectangles t r := by
  cases t with
  | mk nm subs r0 ds col e =>
    simp at h
    rw [TMTree.setRect, update_rectangles, update_rectangles]
    rcases lt_or_eq_of_le h with h' | h'
    · simp [h']
    · simp [← h']

@[simp] theorem data_size_update_rectangles (t : TMTree) (r : Rect) :
    (update_rectangles t r).data_size = t.data_size := by
  cases t with
  | mk nm subs r0 ds col e =>
    rw [update_rectangles]
    split
    · simp
    · split
      · simp
      · split <;> simp

@[simp] theorem data_size_update_pre (t : TMTree) (r : Rect) :
    (update_pre t r).data_size = t.data_size := by
  cases t with
  | mk nm subs r0 ds col e =>
    rw [update_pre]
    split
    · simp
    · split
      · simp
      · split <;> simp

/-- The rect a child ends up storing: its assigned rect, except that a child
with `data_size = 0` overwrites it with `(0,0,0,0)` (its own zero-weight
rule, see `_handle_base_cases`). -/
theorem rect_update_pre (c : TMTree) (rc : Rect) :
    (update_pre c rc).rect =
      if c.data_size = 0 then ⟨0, 0, 0, 0⟩ else rc := by
  cases c with
  | mk nm subs r0 ds col e =>
    simp only [TMTree.data_size_mk]
    rcases lt_trichotomy ds 0 with h | h | h
    · rw [update_pre_neg h, if_neg (by omega)]
      simp
    · rw [update_pre_zero h, if_pos h]
      simp
    · rw [if_neg (by omega)]
      rcases Decidable.em (nm = none) with h1 | h1
      · rw [update_pre_empty_pos h1 h]
        simp
      · rw [update_pre_pos h1 h]
        simp

theorem distribute_space_nil (x y w h total offset : Int) :
    distribute_space x y w h total offset [] = [] := by
  rw [distribute_space]

theorem distribute_space_cons (x y w h total offset : Int) (c : TMTree)
    (cs : List TMTree) :
    distribute_space x y w h total offset (c :: cs) =
      if h < w then
        update_pre c ⟨x + offset, y,
            calculate_dimension w c.data_size total offset cs.isEmpty, h⟩ ::
          distribute_space x y w h total
            (offset + calculate_dimension w c.data_size total offset cs.isEmpty) cs
      else
        update_pre c ⟨x, y + offset, w,
            calculate_dimension h c.data_size total offset cs.isEmpty⟩ ::
          distribute_space x y w h total
            (offset + calculate_dimension h c.data_size total offset cs.isEmpty) cs := by
  rw [distribute_space]

theorem frame_mk (nm subs r d c e) :
    frame (.mk nm subs r d c e) = .mk nm d c e (frameList subs) := by
  rw [frame]

theorem frameList_nil : frameList [] = [] := by rw [frameList]

theorem frameList_cons (c cs) :
    frameList (c :: cs) = frame c :: frameList cs := by rw [frameList]

/-! ### `update_rectangles` only changes rectangles (frame preservation) -/

theorem frame_update_all (t : TMTree) :
    ∀ r, frame (update_rectangles t r) = frame t ∧
      frame (update_pre t r) = frame t := by
  induction t using tm_ind with
  | _ t ih =>
    cases t with
    | mk nm subs r0 ds col e =>
      have hmem : ∀ c ∈ subs, ∀ r',
          frame (update_rectangles c r') = frame c ∧
            frame (update_pre c r') = frame c :=
        fun c hc => ih c (nodes_lt_of_mem hc)
      have hlist : ∀ r', frameList (update_rect_list subs r') = frameList subs := by
        intro r'
        rw [update_rect_list_eq, frameList_eq, frameList_eq, List.map_map]
        exact List.map_congr_left (fun c hc => (hmem c hc r').1)
      have hdist : ∀ (l : List TMTree),
          (∀ c ∈ l, ∀ r', frame (update_pre c r') = frame c) →
          ∀ x y w hh total off,
            frameList (distribute_space x y w hh total off l) = frameList l := by
        intro l hl
        induction l with
        | nil => intro x y w hh total off; rw [distribute_space_nil]
        | cons c cs ihl =>
          intro x y w hh total off
          rw [distribute_space_cons]
          have htail := ihl (fun c' hc' => hl c' (List.mem_cons_of_mem _ hc'))
          split
          · rw [frameList_cons, frameList_cons,
              hl c (List.mem_cons_self c cs), htail]
          · rw [frameList_cons, frameList_cons,
              hl c (List.mem_cons_self c cs), htail]
      intro r
      constructor
      · rw [update_rectangles]
        split
        · rw [frame_mk, frame_mk]
        · split
          · rw [frame_mk, frame_mk, hlist]
          · split
            · rw [frame_mk, frame_mk,
                hdist subs (fun c hc r' => (hmem c hc r').2) _ _ _ _ _ _]
            · rfl
      · rw [update_pre]
        split
        · rw [frame_mk, frame_mk]
        · split
          · rw [frame_mk, frame_mk, hlist]
          · split
            · rw [frame_mk, frame_mk,
                hdist subs (fun c hc r' => (hmem c hc r').2) _ _ _ _ _ _]
            · rw [frame_mk, frame_mk]

theorem frame_update_rectangles (t : TMTree) (r : Rect) :
    frame (update_rectangles t r) = frame t :=
  (frame_update_all t r).1

theorem frame_update_pre (t : TMTree) (r : Rect) :
    frame (update_pre t r) = frame t :=
  (frame_update_all t r).2

theorem distribute_space_isEmpty (x y w h total off : Int) (l : List TMTree) :
    (distribute_space x y w h total off l).isEmpty = l.isEmpty := by
  cases l with
  | nil => rw [distribute_space_nil]
  | cons c cs =>
    rw [distribute_space_cons]
    split <;> simp

/-! ### Re-running the layout with the same rectangle changes nothing -/

theorem update_idem_all (t : TMTree) :
    ∀ r, update_rectangles (update_rectangles t r) r = update_rectangles t r ∧
      update_pre (update_pre t r) r = update_pre t r := by
  induction t using tm_ind with
  | _ t ih =>
    cases t with
    | mk nm subs r0 ds col e =>
      have hmem : ∀ c ∈ subs, ∀ r',
          update_rectangles (update_rectangles c r') r' = update_rectangles c r' ∧
            update_pre (update_pre c r') r' = update_pre c r' :=
        fun c hc => ih c (nodes_lt_of_mem hc)
      have hurl : ∀ r',
          update_rect_list (update_rect_list subs r') r' = update_rect_list subs r' := by
        intro r'
        rw [update_rect_list_eq, update_rect_list_eq, List.map_map]
        exact List.map_congr_left (fun c hc => (hmem c hc r').1)
      have hdist : ∀ (l : List TMTree),
          (∀ c ∈ l, ∀ rc, update_pre (update_pre c rc) rc = update_pre c rc) →
          ∀ x y w hh total off,
            distribute_space x y w hh total off
                (distribute_space x y w hh total off l) =
              distribute_space x y w hh total off l := by
        intro l hl
        induction l with
        | nil => intro x y w hh total off; rw [distribute_space_nil,
            distribute_space_nil]
        | cons c cs ihl =>
          intro x y w hh total off
          have hhead := hl c (List.mem_cons_self c cs)
          have htail := ihl (fun c' hc' => hl c' (List.mem_cons_of_mem _ hc'))
          rw [distribute_space_cons]
          by_cases hw : hh < w
          · rw [if_pos hw, distribute_space_cons, if_pos hw,
              data_size_update_pre, distribute_space_isEmpty, hhead, htail]
          · rw [if_neg hw, distribute_space_cons, if_neg hw,
              data_size_update_pre, distribute_space_isEmpty, hhead, htail]
      intro r
      constructor
      · by_cases h1 : nm = none
        · rcases lt_trichotomy ds 0 with h2 | h2 | h2
          · rw [update_rectangles_neg h2, update_rectangles_neg h2]
          · rw [update_rectangles_zero h2, update_rectangles_zero h2, hurl]
          · rw [update_rectangles_empty_pos h1 h2,
              update_rectangles_empty_pos h1 h2]
        · rcases lt_trichotomy ds 0 with h2 | h2 | h2
          · rw [update_rectangles_neg h2, update_rectangles_neg h2]
          · rw [update_rectangles_zero h2, update_rectangles_zero h2, hurl]
          · rw [update_rectangles_pos h1 h2, update_rectangles_pos h1 h2,
              hdist subs (fun c hc rc => (hmem c hc rc).2) _ _ _ _ _ _]
      · by_cases h1 : nm = none
        · rcases lt_trichotomy ds 0 with h2 | h2 | h2
          · rw [update_pre_neg h2, update_pre_neg h2]
          · rw [update_pre_zero h2, update_pre_zero h2, hurl]
          · rw [update_pre_empty_pos h1 h2, update_pre_empty_pos h1 h2]
        · rcases lt_trichotomy ds 0 with h2 | h2 | h2
          · rw [update_pre_neg h2, update_pre_neg h2]
          · rw [update_pre_zero h2, update_pre_zero h2, hurl]
          · rw [update_pre_pos h1 h2, update_pre_pos h1 h2,
              hdist subs (fun c hc rc => (hmem c hc rc).2) _ _ _ _ _ _]

/-! ### `update_data_sizes` establishes the weight-sum invariant -/

theorem update_data_sizes_eq (nm subs r d c e) :
    update_data_sizes (.mk nm subs r d c e) =
      if subs.isEmpty then .mk nm subs r d c e
      else .mk nm (update_data_sizes_list subs) r
        (sumSizes (update_data_sizes_list subs)) c e := by
  rw [update_data_sizes]

theorem update_data_sizes_leaf {t : TMTree} (h : t.subtrees = []) :
    update_data_sizes t = t := by
  cases t with
  | mk nm subs r d c e =>
    simp at h
    subst h
    rw [update_data_sizes_eq]
    rfl

theorem sizesOkB_mk (nm subs r d c e) :
    sizesOkB (.mk nm subs r d c e) =
      ((subs.isEmpty || decide (d = sumSizes subs)) && sizesOkListB subs) := by
  rw [sizesOkB]

theorem sizesOkListB_nil : sizesOkListB [] = true := by rw [sizesOkListB]

theorem sizesOkListB_cons (c cs) :
    sizesOkListB (c :: cs) = (sizesOkB c && sizesOkListB cs) := by
  rw [sizesOkListB]

theorem sizesOkListB_all {l : List TMTree}
    (h : ∀ c ∈ l, sizesOkB c = true) : sizesOkListB l = true := by
  induction l with
  | nil => rw [sizesOkListB_nil]
  | cons c cs ih =>
    rw [sizesOkListB_cons, h c (List.mem_cons_self c cs),
      ih (fun c' hc' => h c' (List.mem_cons_of_mem _ hc'))]
    rfl

theorem sizesOk_update_data_sizes (t : TMTree) :
    sizesOkB (update_data_sizes t) = true := by
  induction t using tm_ind with
  | _ t ih =>
    cases t with
    | mk nm subs r d c e =>
      cases subs with
      | nil =>
        rw [update_data_sizes_leaf (by simp), sizesOkB_mk]
        simp [sizesOkListB_nil]
      | cons c0 cs =>
        rw [update_data_sizes_eq]
        simp only [List.isEmpty_cons, if_false, Bool.false_eq_true]
        rw [sizesOkB_mk, update_data_sizes_list_eq]
        have hlist : sizesOkListB ((c0 :: cs).map update_data_sizes) = true := by
          apply sizesOkListB_all
          intro m hm
          rcases List.mem_map.mp hm with ⟨c', hc', rfl⟩
          exact ih c' (nodes_lt_of_mem hc')
        rw [hlist]
        simp

theorem sum_size_eq_update_data_sizes (t : TMTree) :
    sum_size t = update_data_sizes t := by
  induction t using tm_ind with
  | _ t ih =>
    cases t with
    | mk nm subs r d c e =>
      have hlist : sum_size_list subs = update_data_sizes_list subs := by
        rw [sum_size_list_eq, update_data_sizes_list_eq]
        exact List.map_congr_left (fun c' hc' => ih c' (nodes_lt_of_mem hc'))
      rw [sum_size, update_data_sizes, hlist]

theorem sizesOk_init (nm : Option String) (subs : List TMTree) (d : Int) :
    sizesOkB (TMTree.init nm subs d) = true := by
  rw [TMTree.init, sum_size_eq_update_data_sizes]
  exact sizesOk_update_data_sizes _

/-! ### Paths: `getAt`, `listModify`, `modifyAt` -/

@[simp] theorem getAt_nil (t : TMTree) : getAt t [] = some t := rfl

theorem getAt_cons (t : TMTree) (i : Nat) (p : List Nat) :
    getAt t (i :: p) = (t.subtrees[i]?).bind (fun c => getAt c p) := by
  rw [getAt]
  cases t.subtrees[i]? <;> rfl

theorem getAt_append (t : TMTree) (p q : List Nat) :
    getAt t (p ++ q) = (getAt t p).bind (fun n => getAt n q) := by
  induction p generalizing t with
  | nil => simp
  | cons i p ih =>
    rw [List.cons_append, getAt_cons, getAt_cons]
    cases t.subtrees[i]? with
    | none => rfl
    | some c => simp [ih c]

theorem getAt_update_data_sizes (t : TMTree) (p : List Nat) :
    getAt (update_data_sizes t) p = (getAt t p).map update_data_sizes := by
  induction p generalizing t with
  | nil => simp
  | cons i p ih =>
    rw [getAt_cons, getAt_cons]
    cases t with
    | mk nm subs r d c e =>
      cases subs with
      | nil =>
        rw [update_data_sizes_leaf (by simp)]
        simp
      | cons c0 cs =>
        rw [update_data_sizes_eq]
        simp only [List.isEmpty_cons, if_false, Bool.false_eq_true]
        rw [TMTree.subtrees_mk, TMTree.subtrees_mk, update_data_sizes_list_eq,
          List.getElem?_map]
        cases (c0 :: cs)[i]? with
        | none => rfl
        | some c' => simp [ih c']

@[simp] theorem listModify_nil (i : Nat) (f : α → α) :
    listModify [] i f = [] := by rw [listModify]

theorem getElem?_listModify_self (l : List α) (i : Nat) (f : α → α) :
    (listModify l i f)[i]? = (l[i]?).map f := by
  induction l generalizing i with
  | nil => simp
  | cons a as ih =>
    cases i with
    | zero => rw [listModify]; simp
    | succ n => rw [listModify]; simpa using ih n

theorem getElem?_listModify_ne (l : List α) {i j : Nat} (h : i ≠ j)
    (f : α → α) : (listModify l i f)[j]? = l[j]? := by
  induction l generalizing i j with
  | nil => simp
  | cons a as ih =>
    cases i with
    | zero =>
      cases j with
      | zero => exact absurd rfl h
      | succ m => rw [listModify]; simp
    | succ n =>
      cases j with
      | zero => rw [listModify]; simp
      | succ m =>
        rw [listModify]
        simpa using ih (fun hc => h (by omega))

theorem listModify_isEmpty (l : List α) (i : Nat) (f : α → α) :
    (listModify l i f).isEmpty = l.isEmpty := by
  cases l with
  | nil => simp
  | cons a as => cases i <;> rw [listModify] <;> simp

theorem getAt_modifyAt {t : TMTree} {p : List Nat} {n : TMTree}
    (h : getAt t p = some n) (f : TMTree → TMTree) :
    getAt (modifyAt t p f) p = some (f n) := by
  induction p generalizing t with
  | nil =>
    simp at h
    subst h
    simp [modifyAt]
  | cons i p ih =>
    rw [getAt_cons] at h
    cases t with
    | mk nm subs r d c e =>
      rw [modifyAt, getAt_cons, TMTree.subtrees_mk]
      rw [TMTree.subtrees_mk] at h
      cases hc : subs[i]? with
      | none => rw [hc] at h; simp at h
      | some c' =>
        rw [hc] at h
        simp at h
        rw [getElem?_listModify_self, hc]
        simpa using ih h

theorem getAt_modifyAt_append (t : TMTree) (sp q : List Nat)
    (f : TMTree → TMTree) :
    getAt (modifyAt t sp f) (sp ++ q) =
      (getAt t sp).bind (fun n => getAt (f n) q) := by
  induction sp generalizing t with
  | nil => simp [modifyAt]
  | cons i sp ih =>
    cases t with
    | mk nm subs r d c e =>
      rw [modifyAt, List.cons_append, getAt_cons, getAt_cons,
        TMTree.subtrees_mk, TMTree.subtrees_mk, getElem?_listModify_self]
      cases subs[i]? with
      | none => rfl
      | some c' => simpa using ih c'

/-! ### Operations that do not touch sizes preserve the weight-sum invariant -/

theorem modifyAt_nil (t : TMTree) (f : TMTree → TMTree) :
    modifyAt t [] f = f t := by
  cases t with
  | mk nm subs r d c e => rw [modifyAt]

theorem data_size_modifyAt {f : TMTree → TMTree}
    (hf : ∀ m, (f m).data_size = m.data_size) (t : TMTree) (p : List Nat) :
    (modifyAt t p f).data_size = t.data_size := by
  cases p with
  | nil => rw [modifyAt_nil]; exact hf t
  | cons i p =>
    cases t with
    | mk nm subs r d c e => rw [modifyAt]; simp

theorem sumSizes_listModify {g : TMTree → TMTree}
    (hg : ∀ s, (g s).data_size = s.data_size) (l : List TMTree) (i : Nat) :
    sumSizes (listModify l i g) = sumSizes l := by
  induction l generalizing i with
  | nil => simp
  | cons a as ih =>
    cases i with
    | zero => rw [listModify]; simp [hg a]
    | succ n => rw [listModify]; simp [ih n]

theorem sizesOkListB_listModify {g : TMTree → TMTree}
    (hg : ∀ s, sizesOkB (g s) = sizesOkB s) (l : List TMTree) (i : Nat) :
    sizesOkListB (listModify l i g) = sizesOkListB l := by
  induction l generalizing i with
  | nil => simp
  | cons a as ih =>
    cases i with
    | zero => rw [listModify, sizesOkListB_cons, sizesOkListB_cons, hg a]
    | succ n => rw [listModify, sizesOkListB_cons, sizesOkListB_cons, ih n]

theorem sizesOkB_modifyAt {f : TMTree → TMTree}
    (hd : ∀ m, (f m).data_size = m.data_size)
    (hs : ∀ m, sizesOkB (f m) = sizesOkB m) (t : TMTree) (p : List Nat) :
    sizesOkB (modifyAt t p f) = sizesOkB t := by
  induction p generalizing t with
  | nil => rw [modifyAt_nil]; exact hs t
  | cons i p ih =>
    cases t with
    | mk nm subs r d c e =>
      rw [modifyAt, sizesOkB_mk, sizesOkB_mk, listModify_isEmpty,
        sumSizes_listModify (fun s => data_size_modifyAt hd s p),
        sizesOkListB_listModify (fun s => ih s)]

theorem isEmpty_map (l : List α) (g : α → β) :
    (l.map g).isEmpty = l.isEmpty := by
  cases l <;> simp

theorem sumSizes_map {g : TMTree → TMTree} {l : List TMTree}
    (hg : ∀ c ∈ l, (g c).data_size = c.data_size) :
    sumSizes (l.map g) = sumSizes l := by
  induction l with
  | nil => simp
  | cons a as ih =>
    simp only [List.map_cons, sumSizes_cons]
    rw [hg a (List.mem_cons_self a as),
      ih (fun c hc => hg c (List.mem_cons_of_mem _ hc))]

theorem sizesOkListB_map {g : TMTree → TMTree} {l : List TMTree}
    (hg : ∀ c ∈ l, sizesOkB (g c) = sizesOkB c) :
    sizesOkListB (l.map g) = sizesOkListB l := by
  induction l with
  | nil => simp
  | cons a as ih =>
    simp only [List.map_cons]
    rw [sizesOkListB_cons, sizesOkListB_cons, hg a (List.mem_cons_self a as),
      ih (fun c hc => hg c (List.mem_cons_of_mem _ hc))]

theorem data_size_expandNode (m : TMTree) :
    (expandNode m).data_size = m.data_size := by
  cases m with
  | mk nm subs r d c e => rw [expandNode]; split <;> simp

theorem sizesOkB_expandNode (m : TMTree) :
    sizesOkB (expandNode m) = sizesOkB m := by
  cases m with
  | mk nm subs r d c e =>
    rw [expandNode]
    split
    · rfl
    · rw [sizesOkB_mk, sizesOkB_mk]

theorem data_size_expandAllNode (m : TMTree) :
    (expandAllNode m).data_size = m.data_size := by
  cases m with
  | mk nm subs r d c e => rw [expandAllNode]; split <;> simp

theorem sizesOkB_expandAllNode (m : TMTree) :
    sizesOkB (expandAllNode m) = sizesOkB m := by
  induction m using tm_ind with
  | _ m ih =>
    cases m with
    | mk nm subs r d c e =>
      rw [expandAllNode]
      split
      · rfl
      · rw [sizesOkB_mk, sizesOkB_mk, expandAllList_eq, isEmpty_map,
          sumSizes_map (fun c' _ => data_size_expandAllNode c'),
          sizesOkListB_map (fun c' hc' => ih c' (nodes_lt_of_mem hc'))]

theorem collapse_parent_mk (nm subs r d c e) :
    collapse_parent (.mk nm subs r d c e) =
      .mk nm (collapseParentList subs) r d c false := by
  rw [collapse_parent]

theorem data_size_collapse_parent (m : TMTree) :
    (collapse_parent m).data_size = m.data_size := by
  cases m with
  | mk nm subs r d c e => rw [collapse_parent_mk]; simp

theorem sizesOkB_collapse_parent (m : TMTree) :
    sizesOkB (collapse_parent m) = sizesOkB m := by
  induction m using tm_ind with
  | _ m ih =>
    cases m with
    | mk nm subs r d c e =>
      rw [collapse_parent_mk, sizesOkB_mk, sizesOkB_mk, collapseParentList_eq,
        isEmpty_map, sumSizes_map (fun c' _ => data_size_collapse_parent c'),
        sizesOkListB_map (fun c' hc' => ih c' (nodes_lt_of_mem hc'))]

theorem sizesOk_applyMutation {t : TMTree} (h : sizesOkB t = true)
    (m : Mutation) : sizesOkB (applyMutation t m) = true := by
  cases m with
  | changeSize p f =>
    rw [applyMutation, change_size]
    split
    · exact h
    · split
      · exact sizesOk_update_data_sizes _
      · exact h
  | moveOp s d =>
    rw [applyMutation, move]
    split
    · split
      · exact h
      · split
        · split
          · exact h
          · exact sizesOk_update_data_sizes _
        · exact h
    · exact h
  | deleteOp p =>
    rw [applyMutation, delete_self]
    split
    · exact h
    · exact sizesOk_update_data_sizes _
  | expandOp p =>
    rw [applyMutation, expand,
      sizesOkB_modifyAt data_size_expandNode sizesOkB_expandNode]
    exact h
  | expandAllOp p =>
    rw [applyMutation, expand_all,
      sizesOkB_modifyAt data_size_expandAllNode sizesOkB_expandAllNode]
    exact h
  | collapseOp p =>
    rw [applyMutation, collapse]
    split
    · exact h
    · rw [sizesOkB_modifyAt]
      · exact h
      · intro m
        cases m with
        | mk nm subs r d c e => simp
      · intro m
        cases m with
        | mk nm subs r d c e =>
          rw [sizesOkB_mk, sizesOkB_mk, collapseParentList_eq, isEmpty_map,
            sumSizes_map (fun c' _ => data_size_collapse_parent c'),
            sizesOkListB_map (fun c' _ => sizesOkB_collapse_parent c')]
  | collapseAllOp =>
    rw [applyMutation, collapse_all, sizesOkB_collapse_parent]
    exact h

theorem sizesOk_foldl {t : TMTree} (h : sizesOkB t = true)
    (ms : List Mutation) : sizesOkB (ms.foldl applyMutation t) = true := by
  induction ms generalizing t with
  | nil => exact h
  | cons m ms ih => exact ih (sizesOk_applyMutation h m)

/-! ### The positive-size layout: truncated proportional strips that tile -/

theorem calculate_dimension_not_last (td s total off : Int) :
    calculate_dimension td s total off false = Int.tdiv (td * s) total := by
  rw [calculate_dimension]; rfl

theorem calculate_dimension_last (td s total off : Int) :
    calculate_dimension td s total off true = td - off := by
  rw [calculate_dimension]; rfl

theorem specHStrips_nil (x y h off : Int) : specHStrips x y h off [] = [] := by
  rw [specHStrips]

theorem specHStrips_cons (x y h off ext es) :
    specHStrips x y h off (ext :: es) =
      ⟨x + off, y, ext, h⟩ :: specHStrips x y h (off + ext) es := by
  rw [specHStrips]

theorem specVStrips_nil (x y w off : Int) : specVStrips x y w off [] = [] := by
  rw [specVStrips]

theorem specVStrips_cons (x y w off ext es) :
    specVStrips x y w off (ext :: es) =
      ⟨x, y + off, w, ext⟩ :: specVStrips x y w (off + ext) es := by
  rw [specVStrips]

theorem specExtents_sum (total d : Int) (sizes : List Int) :
    ∀ acc, sizes ≠ [] → (specExtents total d sizes acc).sum = total - acc := by
  induction sizes with
  | nil => exact fun acc h => absurd rfl h
  | cons s rest ih =>
    intro acc _
    cases rest with
    | nil => rw [specExtents]; simp
    | cons s' rest' =>
      rw [specExtents, List.sum_cons, ih _ (List.cons_ne_nil s' rest')]
      · ring
      · exact fun hc => List.noConfusion hc

/-- What a child stores out of its assigned strip: the strip itself, unless
the child's `data_size` is `0`, in which case its own recursion overwrites
the rect with `(0,0,0,0)`. -/
def storedRect (c : TMTree) (strip : Rect) : Rect :=
  if c.data_size = 0 then ⟨0, 0, 0, 0⟩ else strip

theorem rect_update_pre_stored (c : TMTree) (rc : Rect) :
    (update_pre c rc).rect = storedRect c rc :=
  rect_update_pre c rc

theorem distribute_space_map_rect_h {x y w h total : Int} (hw : h < w)
    (l : List TMTree) :
    ∀ off, (distribute_space x y w h total off l).map TMTree.rect =
      List.zipWith storedRect l
        (specHStrips x y h off
          (specExtents w total (l.map TMTree.data_size) off)) := by
  induction l with
  | nil =>
    intro off
    rw [distribute_space_nil, List.map_nil, List.map_nil, specExtents,
      specHStrips_nil]
    rfl
  | cons c cs ih =>
    intro off
    rw [distribute_space_cons, if_pos hw]
    cases cs with
    | nil =>
      simp only [List.map_cons, List.map_nil, distribute_space_nil,
        List.isEmpty_nil, calculate_dimension_last]
      rw [specExtents, specHStrips_cons, specHStrips_nil,
        rect_update_pre_stored]
      rfl
    | cons c' cs' =>
      simp only [List.map_cons, List.isEmpty_cons,
        calculate_dimension_not_last]
      rw [specExtents, specHStrips_cons, rect_update_pre_stored, ih _]
      · simp
      · exact fun hc => List.noConfusion hc

theorem distribute_space_map_rect_v {x y w h total : Int} (hw : ¬h < w)
    (l : List TMTree) :
    ∀ off, (distribute_space x y w h total off l).map TMTree.rect =
      List.zipWith storedRect l
        (specVStrips x y w off
          (specExtents h total (l.map TMTree.data_size) off)) := by
  induction l with
  | nil =>
    intro off
    rw [distribute_space_nil, List.map_nil, List.map_nil, specExtents,
      specVStrips_nil]
    rfl
  | cons c cs ih =>
    intro off
    rw [distribute_space_cons, if_neg hw]
    cases cs with
    | nil =>
      simp only [List.map_cons, List.map_nil, distribute_space_nil,
        List.isEmpty_nil, calculate_dimension_last]
      rw [specExtents, specVStrips_cons, specVStrips_nil,
        rect_update_pre_stored]
      rfl
    | cons c' cs' =>
      simp only [List.map_cons, List.isEmpty_cons,
        calculate_dimension_not_last]
      rw [specExtents, specVStrips_cons, rect_update_pre_stored, ih _]
      · simp
      · exact fun hc => List.noConfusion hc

/-! ### `change_size` on a leaf -/

theorem apply_size_change_mk (nm subs r d c e) (f : ℚ) :
    apply_size_change (.mk nm subs r d c e) f =
      if 0 < f then .mk nm subs r (d + ⌈(d : ℚ) * f⌉) c e
      else if d = 0 then .mk nm subs r (d + 1) c e
      else .mk nm subs r (max 1 (d + ⌊(d : ℚ) * f⌋)) c e := by
  rw [apply_size_change]

theorem subtrees_apply_size_change (m : TMTree) (f : ℚ) :
    (apply_size_change m f).subtrees = m.subtrees := by
  cases m with
  | mk nm subs r d c e =>
    rw [apply_size_change_mk]
    split
    · rfl
    · split <;> rfl

theorem change_size_eq {t : TMTree} {p : List Nat} {n : TMTree}
    (hget : getAt t p = some n) (f : ℚ) :
    change_size t p f =
      if n.subtrees.isEmpty then
        update_data_sizes (modifyAt t p (fun m => apply_size_change m f))
      else t := by
  rw [change_size, hget]

theorem change_size_leaf {t : TMTree} {p : List Nat} {n : TMTree}
    (hget : getAt t p = some n) (hleaf : n.subtrees = []) (f : ℚ) :
    getAt (change_size t p f) p = some (apply_size_change n f) := by
  rw [change_size_eq hget, if_pos (by rw [hleaf]; rfl),
    getAt_update_data_sizes, getAt_modifyAt hget]
  simp [update_data_sizes_leaf
    (show (apply_size_change n f).subtrees = [] by
      rw [subtrees_apply_size_change, hleaf])]

theorem change_size_not_leaf {t : TMTree} {p : List Nat} {n : TMTree}
    (hget : getAt t p = some n) (h : n.subtrees ≠ []) (f : ℚ) :
    change_size t p f = t := by
  rw [change_size_eq hget, if_neg]
  simp [List.isEmpty_iff, h]

/-! ### `collapse` helpers -/

theorem getAt_collapse_parent (n : TMTree) (q : List Nat) :
    getAt (collapse_parent n) q = (getAt n q).map collapse_parent := by
  induction q generalizing n with
  | nil => simp
  | cons i q ih =>
    cases n with
    | mk nm subs r d c e =>
      rw [collapse_parent_mk, getAt_cons, getAt_cons, TMTree.subtrees_mk,
        TMTree.subtrees_mk, collapseParentList_eq, List.getElem?_map]
      cases subs[i]? with
      | none => rfl
      | some c' => simp [ih c']

theorem expanded_collapse_parent (m : TMTree) :
    (collapse_parent m).expanded = false := by
  cases m with
  | mk nm subs r d c e => rw [collapse_parent_mk]; simp

/-! ### Spatial-query helpers -/

theorem get_tree_at_position_eq (nm subs r d c e pos) :
    get_tree_at_position (.mk nm subs r d c e) pos =
      if is_pos_inside_rect (.mk nm subs r d c e) pos then
        if subs.isEmpty || !e then some (.mk nm subs r d c e)
        else search_subtrees_for_pos subs pos
      else none := by
  rw [get_tree_at_position]

theorem search_subtrees_nil (pos : Int × Int) :
    search_subtrees_for_pos [] pos = none := by
  rw [search_subtrees_for_pos]

theorem search_subtrees_cons (c : TMTree) (cs : List TMTree) (pos : Int × Int) :
    search_subtrees_for_pos (c :: cs) pos =
      match get_tree_at_position c pos with
      | some m => some m
      | none => search_subtrees_for_pos cs pos := by
  rw [search_subtrees_for_pos]

theorem search_subtrees_eq_none_iff (l : List TMTree) (pos : Int × Int) :
    search_subtrees_for_pos l pos = none ↔
      ∀ c ∈ l, get_tree_at_position c pos = none := by
  induction l with
  | nil => simp [search_subtrees_nil]
  | cons c cs ih =>
    rw [search_subtrees_cons]
    cases hg : get_tree_at_position c pos with
    | none => simp [hg, ih]
    | some m => simp [hg]

theorem search_subtrees_some_first {l : List TMTree} {pos : Int × Int}
    {m : TMTree} (h : search_subtrees_for_pos l pos = some m) :
    ∃ (i : Nat) (c : TMTree), l[i]? = some c ∧
      get_tree_at_position c pos = some m ∧
      ∀ (j : Nat) (cj : TMTree), j < i → l[j]? = some cj →
        get_tree_at_position cj pos = none := by
  induction l with
  | nil => rw [search_subtrees_nil] at h; exact absurd h (by simp)
  | cons c cs ih =>
    rw [search_subtrees_cons] at h
    cases hg : get_tree_at_position c pos with
    | some m' =>
      rw [hg] at h
      simp at h
      subst h
      exact ⟨0, c, by simp, hg, fun j cj hj _ => absurd hj (Nat.not_lt_zero j)⟩
    | none =>
      rw [hg] at h
      simp at h
      obtain ⟨i, c', h1, h2, h3⟩ := ih h
      refine ⟨i + 1, c', by simpa using h1, h2, fun j cj hj hgj => ?_⟩
      cases j with
      | zero =>
        simp at hgj
        subst hgj
        exact hg
      | succ j' =>
        exact h3 j' cj (by omega) (by simpa using hgj)

/-! ### No-op branches of `move`, `delete_self`, `collapse` -/

theorem move_eq {t : TMTree} {src dst : List Nat} {n d : TMTree}
    (hs : getAt t src = some n) (hd : getAt t dst = some d) :
    move t src dst =
      if src = dst ∨ (¬src.isEmpty ∧ dst = src.dropLast) then t
      else if n.subtrees.isEmpty && !d.subtrees.isEmpty then
        match src.getLast? with
        | none => t
        | some si =>
          let sp := src.dropLast
          let t1 := modifyAt t sp (fun par =>
            match par with
            | .mk nm subs r pd c e =>
              let subs' := subs.eraseIdx si
              .mk nm subs' r (pd - n.data_size) c
                (if subs'.isEmpty then false else e))
          let t2 := update_data_sizes t1
          let t3 := modifyAt t2 (adjustPath sp si dst) (fun dest =>
            match dest with
            | .mk nm subs r dd c e =>
              .mk nm (subs ++ [n]) r (dd + n.data_size) c e)
          update_data_sizes t3
      else t := by
  rw [move, hs, hd]

theorem move_self {t : TMTree} {src dst : List Nat} {n d : TMTree}
    (hs : getAt t src = some n) (hd : getAt t dst = some d)
    (h : src = dst) : move t src dst = t := by
  rw [move_eq hs hd, if_pos (Or.inl h)]

theorem move_to_parent {t : TMTree} {src dst : List Nat} {n d : TMTree}
    (hs : getAt t src = some n) (hd : getAt t dst = some d)
    (hne : src ≠ []) (h : dst = src.dropLast) : move t src dst = t := by
  rw [move_eq hs hd, if_pos (Or.inr ⟨by simp [List.isEmpty_iff, hne], h⟩)]

theorem move_not_leaf {t : TMTree} {src dst : List Nat} {n d : TMTree}
    (hs : getAt t src = some n) (hd : getAt t dst = some d)
    (h : n.subtrees ≠ []) : move t src dst = t := by
  rw [move_eq hs hd]
  split
  · rfl
  · rw [if_neg]
    simp [List.isEmpty_iff, h]

theorem move_to_leaf_dest {t : TMTree} {src dst : List Nat} {n d : TMTree}
    (hs : getAt t src = some n) (hd : getAt t dst = some d)
    (h : d.subtrees = []) : move t src dst = t := by
  rw [move_eq hs hd]
  split
  · rfl
  · rw [if_neg]
    simp [h]

theorem delete_self_root (t : TMTree) : delete_self t [] = (false, t) := by
  rw [delete_self]
  rfl

theorem delete_self_nonroot (t : TMTree) {p : List Nat} (h : p ≠ []) :
    (delete_self t p).1 = true := by
  rw [delete_self]
  cases hl : p.getLast? with
  | none => exact absurd (List.getLast?_eq_none_iff.mp hl) h
  | some si => rfl

theorem collapse_root (t : TMTree) : collapse t [] = t := by
  rw [collapse]
  rfl

/-! ### All-zero subtrees collapse to degenerate rectangles -/

theorem allZeroB_mk (nm subs r d c e) :
    allZeroB (.mk nm subs r d c e) = (decide (d = 0) && allZeroListB subs) := by
  rw [allZeroB]

theorem allZeroListB_forall {l : List TMTree} (h : allZeroListB l = true) :
    ∀ c ∈ l, allZeroB c = true := by
  induction l with
  | nil => simp
  | cons a as ih =>
    rw [allZeroListB] at h
    simp only [Bool.and_eq_true] at h
    intro c hc
    rcases List.mem_cons.mp hc with rfl | hc'
    · exact h.1
    · exact ih h.2 c hc'

theorem allRectsZeroB_mk (nm subs r d c e) :
    allRectsZeroB (.mk nm subs r d c e) =
      (decide (r = ⟨0, 0, 0, 0⟩) && allRectsZeroListB subs) := by
  rw [allRectsZeroB]

theorem allRectsZeroListB_all {l : List TMTree}
    (h : ∀ c ∈ l, allRectsZeroB c = true) : allRectsZeroListB l = true := by
  induction l with
  | nil => rw [allRectsZeroListB]
  | cons a as ih =>
    rw [allRectsZeroListB, h a (List.mem_cons_self a as),
      ih (fun c hc => h c (List.mem_cons_of_mem _ hc))]
    rfl

theorem allRectsZero_update_rectangles {t : TMTree}
    (h : allZeroB t = true) (r : Rect) :
    allRectsZeroB (update_rectangles t r) = true := by
  induction t using tm_ind with
  | _ t ih =>
    cases t with
    | mk nm subs r0 d c e =>
      rw [allZeroB_mk, Bool.and_eq_true, decide_eq_true_iff] at h
      rw [update_rectangles_zero h.1, allRectsZeroB_mk, update_rect_list_eq]
      have hlist : allRectsZeroListB (subs.map (update_rectangles · r)) = true := by
        apply allRectsZeroListB_all
        intro m hm
        rcases List.mem_map.mp hm with ⟨c', hc', rfl⟩
        exact ih c' (nodes_lt_of_mem hc') (allZeroListB_forall h.2 c' hc')
      rw [hlist]
      simp

/-! ### Concrete sample trees for the claims -/

def c2_cx_tree : TMTree :=
  .mk (some "p")
    [.mk (some "a") [] ⟨0, 0, 0, 0⟩ 1 (0, 0, 0) false,
     .mk (some "b") [] ⟨0, 0, 0, 0⟩ 2 (0, 0, 0) false]
    ⟨0, 0, 0, 0⟩ 3 (0, 0, 0) false

def c2_scenario : TMTree :=
  .mk (some "r")
    [.mk (some "a") [] ⟨0, 0, 0, 0⟩ 20 (0, 0, 0) false,
     .mk (some "b") [] ⟨0, 0, 0, 0⟩ 30 (0, 0, 0) false,
     .mk (some "c") [] ⟨0, 0, 0, 0⟩ 50 (0, 0, 0) false]
    ⟨0, 0, 0, 0⟩ 100 (0, 0, 0) false

def c2_zero_child_tree : TMTree :=
  .mk (some "p")
    [.mk (some "a") [] ⟨0, 0, 0, 0⟩ 1 (0, 0, 0) false,
     .mk (some "b") [] ⟨0, 0, 0, 0⟩ 1 (0, 0, 0) false,
     .mk (some "z") [] ⟨0, 0, 0, 0⟩ 0 (0, 0, 0) false]
    ⟨0, 0, 0, 0⟩ 2 (0, 0, 0) false

def c3_leaf50 : TMTree := .mk (some "f") [] ⟨0, 0, 0, 0⟩ 50 (0, 0, 0) false

def c3_leaf0 : TMTree := .mk (some "z") [] ⟨0, 0, 0, 0⟩ 0 (0, 0, 0) false

def c4_sample : TMTree :=
  .mk (some "root")
    [.mk (some "A")
       [.mk (some "a1") [] ⟨5, 5, 5, 5⟩ 0 (0, 0, 0) false,
        .mk (some "a2") [] ⟨5, 5, 5, 5⟩ 0 (0, 0, 0) false]
       ⟨5, 5, 5, 5⟩ 0 (0, 0, 0) false,
     .mk (some "B")
       [.mk (some "b1") [] ⟨5, 5, 5, 5⟩ 0 (0, 0, 0) false,
        .mk (some "b2") [] ⟨5, 5, 5, 5⟩ 0 (0, 0, 0) false]
       ⟨5, 5, 5, 5⟩ 0 (0, 0, 0) false]
    ⟨5, 5, 5, 5⟩ 0 (0, 0, 0) false

def c5_tree : TMTree :=
  .mk (some "r")
    [.mk (some "A") [.mk (some "a1") [] ⟨0, 0, 0, 0⟩ 5 (0, 0, 0) false]
       ⟨0, 0, 0, 0⟩ 5 (0, 0, 0) false,
     .mk (some "B") [] ⟨0, 0, 0, 0⟩ 7 (0, 0, 0) false]
    ⟨0, 0, 0, 0⟩ 12 (0, 0, 0) false

def c6_childA : TMTree :=
  .mk (some "A") [.mk (some "a1") [] ⟨0, 0, 0, 0⟩ 1 (0, 0, 0) false]
    ⟨0, 0, 0, 0⟩ 1 (0, 0, 0) true

def c6_childB : TMTree :=
  .mk (some "B") [.mk (some "b1") [] ⟨0, 0, 0, 0⟩ 2 (0, 0, 0) false]
    ⟨0, 0, 0, 0⟩ 2 (0, 0, 0) true

def c6_tree : TMTree :=
  .mk (some "r") [c6_childA, c6_childB] ⟨0, 0, 0, 0⟩ 3 (0, 0, 0) true

def c7_leaf : TMTree := .mk (some "L") [] ⟨0, 0, 10, 10⟩ 5 (0, 0, 0) false

def c8_tree : TMTree :=
  TMTree.init (some "r") [TMTree.init (some "a") [TMTree.init (some "f") [] 5] 0] 0

def c9_sample : TMTree := TMTree.init none [TMTree.init (some "f") [] 5] 0

/-! ### The claims -/

/-- **C1**: every tree produced by construction followed by any finite
sequence of the public mutations (`change_size`, `move`, `delete_self`,
`expand`, `expand_all`, `collapse`, `collapse_all`) satisfies, at every
level, that a node with children has `data_size` equal to the sum of its
children's `data_size`. -/
theorem c1_weight_sum_invariant (nm : Option String) (subs : List TMTree)
    (d : Int) (ms : List Mutation) :
    sizesOkB (ms.foldl applyMutation (TMTree.init nm subs d)) = true :=
  sizesOk_foldl (sizesOk_init nm subs d) ms

/-- **C10**: `update_rectangles` mutates only the `rect` fields — the frame
(name, `data_size`, colour, expansion flag and children structure of every
node) is unchanged — and running it twice with the same rectangle gives the
same result as running it once. -/
theorem c10_update_rectangles_frame_effect (t : TMTree) (r : Rect) :
    frame (update_rectangles t r) = frame t ∧
      update_rectangles (update_rectangles t r) r = update_rectangles t r :=
  ⟨frame_update_rectangles t r, (update_idem_all t r).1⟩

/-- **C4**: a node with `data_size = 0` gets the degenerate rect `(0,0,0,0)`
while its children are still laid out in the original rect (no division by
zero), and an all-zero-weight subtree gets `(0,0,0,0)` at every node. -/
theorem c4_zero_weight_rectangles (t : TMTree) (r : Rect) :
    (t.data_size = 0 →
      (update_rectangles t r).rect = ⟨0, 0, 0, 0⟩ ∧
      (update_rectangles t r).subtrees =
        t.subtrees.map (update_rectangles · r)) ∧
    (allZeroB t = true → allRectsZeroB (update_rectangles t r) = true) := by
  constructor
  · intro h
    cases t with
    | mk nm subs r0 d c e =>
      rw [update_rectangles_zero (by simpa using h), update_rect_list_eq]
      simp
  · exact fun h => allRectsZero_update_rectangles h r

/-- Witness for **C4**: the spec's regression scenario — a weight-0 root with
two weight-0 children each holding two zero-weight leaves, laid out in
`(0,0,100,100)`, yields `(0,0,0,0)` at every node. -/
theorem c4_zero_weight_rectangles_witness :
    allZeroB c4_sample = true ∧
    allRectsZeroB (update_rectangles c4_sample ⟨0, 0, 100, 100⟩) = true :=
  ⟨rfl, (c4_zero_weight_rectangles c4_sample ⟨0, 0, 100, 100⟩).2 rfl⟩

/-- **C2** (amended): for every nonempty-named node with positive size and
children, `update_rectangles` stores the given rect on the node and splits
along the longer axis (`width > height` gives horizontal strips).  The
layout loop assigns each non-last child an extent of
`total_extent * child_size / node_size` truncated **toward zero** (Python
`int()`, equal to the claimed `floor` only for non-negative products), and
assigns the last child the exact remainder, so the assigned extents always
sum to the full extent, for every rectangle including ones with negative
width or height.  Each child then stores its assigned strip — except a
child with `data_size = 0`, whose own recursion overwrites the stored rect
with `(0,0,0,0)` (`storedRect`), so the stored rects exactly tile the
parent only when no child has zero weight. -/
theorem c2_truncated_strips_zero_overwrite (nm : Option String)
    (subs : List TMTree) (r0 : Rect) (ds : Int) (col : Nat × Nat × Nat)
    (e : Bool) (x y w h : Int) (h1 : nm ≠ none) (h2 : 0 < ds)
    (h3 : subs ≠ []) :
    (update_rectangles (.mk nm subs r0 ds col e) ⟨x, y, w, h⟩).rect =
      ⟨x, y, w, h⟩ ∧
    (h < w →
      (update_rectangles (.mk nm subs r0 ds col e)
          ⟨x, y, w, h⟩).subtrees.map TMTree.rect =
        List.zipWith storedRect subs
          (specHStrips x y h 0
            (specExtents w ds (subs.map TMTree.data_size) 0)) ∧
      (specExtents w ds (subs.map TMTree.data_size) 0).sum = w) ∧
    (¬h < w →
      (update_rectangles (.mk nm subs r0 ds col e)
          ⟨x, y, w, h⟩).subtrees.map TMTree.rect =
        List.zipWith storedRect subs
          (specVStrips x y w 0
            (specExtents h ds (subs.map TMTree.data_size) 0)) ∧
      (specExtents h ds (subs.map TMTree.data_size) 0).sum = h) := by
  have hmapne : subs.map TMTree.data_size ≠ [] := by
    cases subs with
    | nil => exact absurd rfl h3
    | cons a as => simp
  rw [update_rectangles_pos h1 h2]
  refine ⟨by simp, fun hw => ⟨?_, ?_⟩, fun hw => ⟨?_, ?_⟩⟩
  · simpa using distribute_space_map_rect_h hw subs 0
  · rw [specExtents_sum w ds _ 0 hmapne]
    ring
  · simpa using distribute_space_map_rect_v hw subs 0
  · rw [specExtents_sum h ds _ 0 hmapne]
    ring

/-- Counterexample for **C2** as stated, in both failing aspects:
(1) with rect `(0,0,-5,-10)` over child weights `1,2` (total `3`) the split
is horizontal (`-5 > -10`) and the first child's extent is
`int(-5·1/3) = -1` (truncation toward zero) where the claimed
`floor(-5·1/3)` is `-2`; (2) with child weights `1,1,0` (total `2`) in rect
`(0,0,5,2)` the zero-weight last child's assigned strip `(4,0,1,2)` is
overwritten to `(0,0,0,0)`, so the stored child widths sum to `4 ≠ 5`: the
stored rects do not exactly tile the parent's extent. -/
theorem c2_layout_counterexample :
    ((update_rectangles c2_cx_tree ⟨0, 0, -5, -10⟩).subtrees.map
        TMTree.rect)[0]? = some ⟨0, 0, -1, -10⟩ ∧
    (⌊((-5 : ℚ) * 1 / 3)⌋ : ℤ) = -2 ∧ ((-1 : ℤ) = -2 → False) ∧
    (update_rectangles c2_zero_child_tree ⟨0, 0, 5, 2⟩).subtrees.map
        TMTree.rect = [⟨0, 0, 2, 2⟩, ⟨2, 0, 2, 2⟩, ⟨0, 0, 0, 0⟩] ∧
    ((update_rectangles c2_zero_child_tree ⟨0, 0, 5, 2⟩).subtrees.map
        (fun c => c.rect.width)).sum = 4 ∧ ((4 : ℤ) = 5 → False) :=
  ⟨rfl, by norm_num, by omega, rfl, rfl, by omega⟩

/-- Witness for **C2**: the spec's scenario — three leaves of weights
20/30/50 under a weight-100 root laid out in `(0,0,200,-100)` split
horizontally into widths 40/60/100, despite the negative height; all
weights are positive, so every stored rect is its assigned strip. -/
theorem c2_truncated_strips_zero_overwrite_witness :
    (update_rectangles c2_scenario ⟨0, 0, 200, -100⟩).subtrees.map
        TMTree.rect =
      List.zipWith storedRect c2_scenario.subtrees
        (specHStrips 0 0 (-100) 0 (specExtents 200 100 [20, 30, 50] 0)) ∧
    (specExtents 200 100 [20, 30, 50] 0).sum = 200 ∧
    (update_rectangles c2_scenario ⟨0, 0, 200, -100⟩).subtrees.map
        TMTree.rect =
      [⟨0, 0, 40, -100⟩, ⟨40, 0, 60, -100⟩, ⟨100, 0, 100, -100⟩] := by
  have h := c2_truncated_strips_zero_overwrite (some "r")
    [.mk (some "a") [] ⟨0, 0, 0, 0⟩ 20 (0, 0, 0) false,
     .mk (some "b") [] ⟨0, 0, 0, 0⟩ 30 (0, 0, 0) false,
     .mk (some "c") [] ⟨0, 0, 0, 0⟩ 50 (0, 0, 0) false]
    ⟨0, 0, 0, 0⟩ 100 (0, 0, 0) false 0 0 200 (-100)
    (by simp) (by norm_num) (by simp)
  have hw := h.2.1 (by norm_num)
  exact ⟨hw.1, hw.2, rfl⟩

/-- **C3**: `change_size(factor)` on a leaf updates its `data_size`:
`factor > 0` adds `ceil(data_size * factor)`; `factor ≤ 0` on a zero size
gives `1`; `factor < 0` on a positive size gives
`max 1 (data_size + floor(data_size * factor))`, never dropping below `1`;
on a non-leaf the whole operation is a no-op. -/
theorem c3_change_size_leaf_formula (t : TMTree) (p : List Nat) (n : TMTree)
    (f : ℚ) (hget : getAt t p = some n) :
    (n.subtrees = [] →
      ∃ m, getAt (change_size t p f) p = some m ∧
        (0 < f → m.data_size = n.data_size + ⌈(n.data_size : ℚ) * f⌉) ∧
        (f ≤ 0 ∧ n.data_size = 0 → m.data_size = 1) ∧
        (f < 0 ∧ 0 < n.data_size →
          m.data_size = max 1 (n.data_size + ⌊(n.data_size : ℚ) * f⌋))) ∧
    (n.subtrees ≠ [] → change_size t p f = t) := by
  constructor
  · intro hleaf
    refine ⟨apply_size_change n f, change_size_leaf hget hleaf f, ?_, ?_, ?_⟩
    · intro hf
      cases n with
      | mk nm subs r d c e =>
        rw [apply_size_change_mk, if_pos hf]
        simp
    · intro hf
      cases n with
      | mk nm subs r d c e =>
        simp only [TMTree.data_size_mk] at hf
        rw [apply_size_change_mk, if_neg (not_lt.mpr hf.1), if_pos hf.2]
        simp [hf.2]
    · intro hf
      cases n with
      | mk nm subs r d c e =>
        simp only [TMTree.data_size_mk] at hf
        rw [apply_size_change_mk, if_neg (by exact fun hc => absurd hf.1 (by
          exact not_lt.mpr (le_of_lt hc))), if_neg (by omega)]
        simp
  · exact fun h => change_size_not_leaf hget h f

/-- Witness for **C3**: a weight-50 leaf goes to 60 under factor `1/5`, a
fresh weight-50 leaf goes to 40 under factor `-1/5`, and a weight-0 leaf
goes to 1 under factor `-1/2`. -/
theorem c3_change_size_leaf_formula_witness :
    (getAt (change_size c3_leaf50 [] (1/5 : ℚ)) []).map TMTree.data_size =
      some 60 ∧
    (getAt (change_size c3_leaf50 [] (-(1/5) : ℚ)) []).map TMTree.data_size =
      some 40 ∧
    (getAt (change_size c3_leaf0 [] (-(1/2) : ℚ)) []).map TMTree.data_size =
      some 1 := by
  refine ⟨?_, ?_, ?_⟩
  · obtain ⟨m, hm, ha, _, _⟩ :=
      (c3_change_size_leaf_formula c3_leaf50 [] c3_leaf50 (1/5) rfl).1 rfl
    rw [hm, Option.map_some', ha (by norm_num)]
    simp only [c3_leaf50, TMTree.data_size_mk]
    norm_num
  · obtain ⟨m, hm, _, _, hc⟩ :=
      (c3_change_size_leaf_formula c3_leaf50 [] c3_leaf50 (-(1/5)) rfl).1 rfl
    rw [hm, Option.map_some',
      hc ⟨by norm_num, by norm_num [c3_leaf50]⟩]
    simp only [c3_leaf50, TMTree.data_size_mk]
    norm_num
  · obtain ⟨m, hm, _, hb, _⟩ :=
      (c3_change_size_leaf_formula c3_leaf0 [] c3_leaf0 (-(1/2)) rfl).1 rfl
    rw [hm, Option.map_some',
      hb ⟨by norm_num, by norm_num [c3_leaf0]⟩]

/-- **C5**: the user-facing mutation no-ops are silent: `move` to itself, to
its own parent, of a non-leaf, or into a leaf destination returns the tree
unchanged; `delete_self` on the root returns `false` with the tree
unchanged and `true` exactly when the node has a parent; `collapse` on the
root returns the tree unchanged. -/
theorem c5_silent_noops (t : TMTree) (src dst p : List Nat) (n d np : TMTree)
    (hs : getAt t src = some n) (hd : getAt t dst = some d)
    (_hp : getAt t p = some np) :
    (src = dst → move t src dst = t) ∧
    (src ≠ [] → dst = src.dropLast → move t src dst = t) ∧
    (n.subtrees ≠ [] → move t src dst = t) ∧
    (d.subtrees = [] → move t src dst = t) ∧
    delete_self t [] = (false, t) ∧
    (p ≠ [] → (delete_self t p).1 = true) ∧
    collapse t [] = t :=
  ⟨move_self hs hd, fun h1 h2 => move_to_parent hs hd h1 h2,
   move_not_leaf hs hd, move_to_leaf_dest hs hd, delete_self_root t,
   delete_self_nonroot t, collapse_root t⟩

/-- Witness for **C5**: on a concrete tree, move-to-self, move-to-own-parent,
move of a non-leaf, and move into a leaf destination all leave the tree
unchanged; deleting the root reports `false` without change, deleting a real
node reports `true`, and collapsing the root changes nothing. -/
theorem c5_silent_noops_witness :
    move c5_tree [0] [0] = c5_tree ∧
    move c5_tree [0, 0] [0] = c5_tree ∧
    move c5_tree [0] [1] = c5_tree ∧
    move c5_tree [1] [0, 0] = c5_tree ∧
    delete_self c5_tree [] = (false, c5_tree) ∧
    (delete_self c5_tree [0, 0]).1 = true ∧
    collapse c5_tree [] = c5_tree := by
  refine ⟨?_, ?_, ?_, ?_, ?_, ?_, ?_⟩
  · exact (c5_silent_noops c5_tree [0] [0] [] _ _ _ rfl rfl rfl).1 rfl
  · exact (c5_silent_noops c5_tree [0, 0] [0] [] _ _ _ rfl rfl
      rfl).2.1 (by simp) rfl
  · exact (c5_silent_noops c5_tree [0] [1] [] _ _ _ rfl rfl
      rfl).2.2.1 (by simp [c5_tree])
  · exact (c5_silent_noops c5_tree [1] [0, 0] [] _ _ _ rfl rfl
      rfl).2.2.2.1 rfl
  · exact (c5_silent_noops c5_tree [] [] [] _ _ _ rfl rfl rfl).2.2.2.2.1
  · exact (c5_silent_noops c5_tree [] [] [0, 0] _ _ _ rfl rfl
      rfl).2.2.2.2.2.1 (by simp)
  · exact (c5_silent_noops c5_tree [] [] [] _ _ _ rfl rfl rfl).2.2.2.2.2.2

/-- **C6**: `collapse` on a node with a parent clears the parent's flag and
clears the flag of every node strictly below the parent (both siblings'
entire subtrees); on a node with no parent it changes nothing. -/
theorem c6_collapse_sibling_group (t : TMTree) (p : List Nat) (n : TMTree) :
    (p = [] → collapse t p = t) ∧
    (p ≠ [] → getAt t p = some n →
      (getAt (collapse t p) p.dropLast).map TMTree.expanded = some false ∧
      ∀ q : List Nat, q ≠ [] →
        (getAt (collapse t p) (p.dropLast ++ q)).map TMTree.expanded =
          (getAt t (p.dropLast ++ q)).map (fun _ => false)) := by
  constructor
  · intro h
    subst h
    exact collapse_root t
  · intro hne hget
    have hsplit : p.dropLast ++ [p.getLast hne] = p :=
      List.dropLast_append_getLast hne
    obtain ⟨par, hpar⟩ : ∃ par, getAt t p.dropLast = some par := by
      cases hg : getAt t p.dropLast with
      | none =>
        rw [← hsplit, getAt_append, hg] at hget
        simp at hget
      | some par => exact ⟨par, rfl⟩
    have hcol : collapse t p = modifyAt t p.dropLast (fun par =>
        match par with
        | .mk nm subs r d c _ => .mk nm (collapseParentList subs) r d c false) := by
      rw [collapse, if_neg (by simp [List.isEmpty_iff, hne])]
    constructor
    · rw [hcol, getAt_modifyAt hpar]
      cases par with
      | mk nm subs r d c e => simp
    · intro q hq
      rw [hcol, getAt_modifyAt_append, hpar, getAt_append, hpar]
      cases par with
      | mk nm subs r d c e =>
        simp only [Option.some_bind]
        cases q with
        | nil => exact absurd rfl hq
        | cons i q' =>
          rw [getAt_cons, getAt_cons, TMTree.subtrees_mk, TMTree.subtrees_mk,
            collapseParentList_eq, List.getElem?_map]
          cases subs[i]? with
          | none => rfl
          | some c' =>
            simp only [Option.map_some', Option.some_bind]
            rw [getAt_collapse_parent]
            cases getAt c' q' with
            | none => rfl
            | some m' => simp [expanded_collapse_parent]

/-- Witness for **C6**: collapsing child `A` of a two-child expanded root
clears the root's flag and sibling `B`'s flag. -/
theorem c6_collapse_sibling_group_witness :
    (getAt (collapse c6_tree [0]) []).map TMTree.expanded = some false ∧
    (getAt (collapse c6_tree [0]) [1]).map TMTree.expanded = some false := by
  have h := (c6_collapse_sibling_group c6_tree [0] c6_childA).2
    (by simp) rfl
  exact ⟨h.1, (h.2 [1] (by simp)).trans rfl⟩

/-- **C7**: the spatial query returns `none` whenever the point lies outside
the node's rect under inclusive delta bounds; inside, a leaf or
non-expanded node returns itself; otherwise the children are searched in
insertion order and the first success wins (`none` exactly when every
child's query fails). -/
theorem c7_get_tree_at_position (t : TMTree) (pos : Int × Int) :
    (¬(t.rect.x ≤ pos.1 ∧ pos.1 ≤ t.rect.x + t.rect.width ∧
        t.rect.y ≤ pos.2 ∧ pos.2 ≤ t.rect.y + t.rect.height) →
      get_tree_at_position t pos = none) ∧
    ((t.rect.x ≤ pos.1 ∧ pos.1 ≤ t.rect.x + t.rect.width ∧
        t.rect.y ≤ pos.2 ∧ pos.2 ≤ t.rect.y + t.rect.height) →
      ((t.subtrees = [] ∨ t.expanded = false) →
        get_tree_at_position t pos = some t) ∧
      (t.subtrees ≠ [] → t.expanded = true →
        (get_tree_at_position t pos = none ↔
          ∀ c ∈ t.subtrees, get_tree_at_position c pos = none) ∧
        (∀ m, get_tree_at_position t pos = some m →
          ∃ (i : Nat) (c : TMTree), t.subtrees[i]? = some c ∧
            get_tree_at_position c pos = some m ∧
            ∀ (j : Nat) (cj : TMTree), j < i → t.subtrees[j]? = some cj →
              get_tree_at_position cj pos = none))) := by
  cases t with
  | mk nm subs r d c e =>
    simp only [TMTree.rect_mk, TMTree.subtrees_mk, TMTree.expanded_mk]
    constructor
    · intro hout
      rw [get_tree_at_position_eq, if_neg]
      rw [is_pos_inside_rect]
      simpa using hout
    · intro hin
      have hin' : is_pos_inside_rect (.mk nm subs r d c e) pos = true := by
        rw [is_pos_inside_rect]
        simpa using hin
      constructor
      · intro hlf
        rw [get_tree_at_position_eq, if_pos hin', if_pos]
        rcases hlf with h | h
        · subst h
          simp
        · subst h
          simp
      · intro hsubs hexp
        subst hexp
        have hcond : (subs.isEmpty || !true) = false := by
          simp [List.isEmpty_iff, hsubs]
        rw [get_tree_at_position_eq, if_pos hin', hcond]
        simp only [Bool.false_eq_true, if_false]
        exact ⟨search_subtrees_eq_none_iff subs pos,
          fun m hm => search_subtrees_some_first hm⟩

/-- Witness for **C7**: a point inside a leaf's rect returns the leaf, and a
point outside returns `none`. -/
theorem c7_get_tree_at_position_witness :
    get_tree_at_position c7_leaf (3, 4) = some c7_leaf ∧
    get_tree_at_position c7_leaf (20, 20) = none :=
  ⟨((c7_get_tree_at_position c7_leaf (3, 4)).2 (by decide)).1 (Or.inl rfl),
   (c7_get_tree_at_position c7_leaf (20, 20)).1 (by decide)⟩

/-- **C8** is refuted by the code: on the reachable tree
`root → a → leaf` (all flags initially false, so the visibility invariant
holds), `expand` on the internal child `a` sets `a`'s flag while its
parent's flag stays false, breaking the prefix-closure invariant that the
class docstring and the spec both state.  The evaluation below exhibits the
failing input. -/
theorem c8_expand_breaks_prefix_closure :
    expandedOkB c8_tree = true ∧
    (getAt (expand c8_tree [0]) [0]).map TMTree.expanded = some true ∧
    (expand c8_tree [0]).expanded = false ∧
    expandedOkB (expand c8_tree [0]) = false :=
  ⟨rfl, rfl, rfl, rfl⟩

/-- Counterexample for **C9** as stated: constructing with an absent name
and a nonempty child list does **not** fail — it returns a tree that is
empty-named yet holds the child, with the summed size. -/
theorem c9_construction_not_rejected :
    c9_sample.is_empty = true ∧ c9_sample.subtrees.length = 1 ∧
    c9_sample.data_size = 5 :=
  ⟨rfl, rfl, rfl⟩

/-- **C9** (amended): construction with an absent name and nonempty children
is only a documented precondition, not a checked one: `__init__` returns a
tree that is empty-named yet has all the given children attached (violating
the documented empty-node invariant), and that tree still satisfies the
weight-sum invariant. -/
theorem c9_unchecked_empty_with_children (subs : List TMTree) (d : Int)
    (h : subs ≠ []) :
    (TMTree.init none subs d).is_empty = true ∧
    (TMTree.init none subs d).subtrees.length = subs.length ∧
    sizesOkB (TMTree.init none subs d) = true := by
  refine ⟨?_, ?_, sizesOk_init none subs d⟩
  · cases subs with
    | nil => exact absurd rfl h
    | cons c cs =>
      rw [TMTree.init, sum_size]
      simp [TMTree.is_empty]
  · cases subs with
    | nil => exact absurd rfl h
    | cons c cs =>
      rw [TMTree.init, sum_size]
      simp only [List.isEmpty_cons, Bool.false_eq_true, if_false,
        TMTree.subtrees_mk]
      rw [sum_size_list_eq]
      simp

/-- Witness for **C9** (amended). -/
theorem c9_unchecked_empty_with_children_witness :
    (TMTree.init none [TMTree.init (some "f") [] 5] 0).is_empty = true ∧
    (TMTree.init none [TMTree.init (some "f") [] 5] 0).subtrees.length =
      ([TMTree.init (some "f") [] 5] : List TMTree).length ∧
    sizesOkB (TMTree.init none [TMTree.init (some "f") [] 5] 0) = true :=
  c9_unchecked_empty_with_children [TMTree.init (some "f") [] 5] 0
    (by simp)
